import Mathlib

/-!
# Calculator: expression builder and guarded evaluator

A shallow embedding of `src/calculator.js`.

* A JavaScript string is modelled as a `List Char`.  Every character the
  builder inspects (`+ - * / ( ) .`) is a single UTF-16 code unit, so the
  code-unit view of JavaScript and the code-point view used here agree on
  every test the program performs.
* The global `parenOpen` is a JavaScript number holding an integer; it is
  modelled as an `Int` (the counter is assumed to stay within the range in
  which `++` and `--` are exact).
* `updateDisplay` only writes to the DOM and is not part of the state.
* The dynamic evaluation `Function(...)()` and the number primitives are
  supplied by the JavaScript engine; they are taken as a parameter
  (`Engine`).
* `jsEngine` is the engine with the Number primitives of ECMAScript
  (IEEE-754 binary64 arithmetic, `Math.round`, `Number::toString`) and the
  evaluation of decimal integer literals; how any other string evaluates
  stays a parameter.
-/

namespace Calculator

/-! ## Data model -/

/-- The two globals of the script: `expression` and `parenOpen`. -/
structure Calc where
  expression : List Char
  parenOpen : Int
  deriving DecidableEq, Repr

/-- The state at start-up: `expression = ''`, `parenOpen = 0`. -/
def Calc.init : Calc := ⟨[], 0⟩

/-! ## Regular expressions of the source, as character predicates -/

/-- The character class `[+\-*/]`. -/
def isOperatorChar (c : Char) : Bool :=
  c == '+' || c == '-' || c == '*' || c == '/'

/-- The character class `[+\-*/(]` of `handleParen`. -/
def isOperatorOrOpenChar (c : Char) : Bool :=
  c == '+' || c == '-' || c == '*' || c == '/' || c == '('

/-- The unanchored test `/[+\-*/]/.test(str)`: some character of `str` is an operator. -/
def testOperator (str : List Char) : Bool :=
  str.any isOperatorChar

/-- The anchored test `/[+\-*/(]$/.test(str)`: the last character of `str` is in the class. -/
def testOperatorOrOpenAtEnd (str : List Char) : Bool :=
  match str.getLast? with
  | some c => isOperatorOrOpenChar c
  | none => false

/-- The class `\s` of ECMAScript regular expressions. -/
def isJsWhitespace (c : Char) : Bool :=
  let n := c.toNat
  n == 0x09 || n == 0x0A || n == 0x0B || n == 0x0C || n == 0x0D || n == 0x20 ||
  n == 0xA0 || n == 0x1680 || (0x2000 ≤ n && n ≤ 0x200A) ||
  n == 0x2028 || n == 0x2029 || n == 0x202F || n == 0x205F || n == 0x3000 || n == 0xFEFF

/-- The character class `[0-9+\-*/().\s]` of `ALLOWED`. -/
def isAllowedChar (c : Char) : Bool :=
  ('0'.toNat ≤ c.toNat && c.toNat ≤ '9'.toNat) ||
  c == '+' || c == '-' || c == '*' || c == '/' || c == '(' || c == ')' || c == '.' ||
  isJsWhitespace c

/-- The test `ALLOWED.test(expr)` with `ALLOWED = /^[0-9+\-*/().\s]+$/`:
one or more characters, all from the class. -/
def ALLOWED (expr : List Char) : Bool :=
  !expr.isEmpty && expr.all isAllowedChar

/-! ## String primitives used by the builder -/

/-- The call `str.slice(-1)`: the last character as a string, or `''`. -/
def sliceLast (str : List Char) : List Char :=
  str.drop (str.length - 1)

/-- The call `str.slice(0, -1)`: everything but the last character. -/
def sliceInit (str : List Char) : List Char :=
  str.take (str.length - 1)

/-- The call `str.split(/[+\-*/]/)`: the pieces between operator characters.
The result is never empty (the pattern does not match the empty string). -/
def splitOperators : List Char → List (List Char)
  | [] => [[]]
  | c :: cs =>
    if isOperatorChar c then [] :: splitOperators cs
    else
      match splitOperators cs with
      | [] => [[c]]
      | t :: ts => (c :: t) :: ts

/-- The expression `expression.split(/[+\-*/]/).pop()`: the last piece. -/
def afterLastOperator (str : List Char) : List Char :=
  (splitOperators str).getLast?.getD []

/-! ## Evaluator -/

/-- The facilities of the JavaScript engine used by `safeEvaluate` and the
equals handlers, over a type `ν` of JavaScript values. -/
structure Engine (ν : Type) where
  /-- The call `Function("\"use strict\"; return (" + expr + ")")()`;
  `none` when compiling or running the code throws. -/
  dynamicEval : List Char → Option ν
  /-- The test `typeof result === 'number' && !Number.isFinite(result)`. -/
  isNonFiniteNumber : ν → Bool
  /-- The expression `Math.round((result + Number.EPSILON) * 1e12) / 1e12`. -/
  round12 : ν → ν
  /-- The conversion `String(result)`. -/
  toStr : ν → List Char

/-- The two errors thrown by `safeEvaluate` itself, and the one thrown by the
dynamic evaluation. -/
inductive EvalError where
  | invalidCharacters
  | mathError
  | dynamicFailure
  deriving DecidableEq, Repr

/-- One call `Function(...)()` on `expr`: the string handed over is added to
the log of such calls, and the outcome is what the engine computes. -/
def Engine.call {ν : Type} (E : Engine ν) (expr : List Char) (log : List (List Char)) :
    Option ν × List (List Char) :=
  (E.dynamicEval expr, log ++ [expr])

/-- The function `safeEvaluate(expr)`, statement by statement, with the log of
the strings handed to `Function(...)` passed through: only `Engine.call`
writes to it. -/
def safeEvaluateLogged {ν : Type} (E : Engine ν) (expr : List Char)
    (log : List (List Char)) : Except EvalError ν × List (List Char) :=
  if !ALLOWED expr then (.error .invalidCharacters, log)
  else
    match E.call expr log with
    | (none, log1) => (.error .dynamicFailure, log1)
    | (some result, log1) =>
      if E.isNonFiniteNumber result then (.error .mathError, log1)
      else (.ok (E.round12 result), log1)

/-- The outcome of `safeEvaluate(expr)`: what it returns or throws. -/
def safeEvaluate {ν : Type} (E : Engine ν) (expr : List Char) : Except EvalError ν :=
  (safeEvaluateLogged E expr []).1

/-! ## Expression builder -/

/-- The function `appendValue(value)`. -/
def appendValue (value : List Char) (s : Calc) : Calc :=
  let last := sliceLast s.expression
  let isOperator := testOperator value
  let lastIsOperator := testOperator last
  -- `if (value === '.')`: the early `return` is the `none` branch
  let afterDot : Option (List Char) :=
    if value = ['.'] then
      let after := afterLastOperator s.expression
      if after.contains '.' then none
      else if after = [] then some (s.expression ++ ['0'])
      else some s.expression
    else some s.expression
  match afterDot with
  | none => s
  | some expression =>
    if isOperator then
      if expression = [] ∧ value ≠ ['-'] then ⟨expression, s.parenOpen⟩
      else if lastIsOperator then ⟨sliceInit expression ++ value, s.parenOpen⟩
      else ⟨expression ++ value, s.parenOpen⟩
    else ⟨expression ++ value, s.parenOpen⟩

/-- The function `handleClear()`. -/
def handleClear (_s : Calc) : Calc := ⟨[], 0⟩

/-- The function `handleBackspace()`. -/
def handleBackspace (s : Calc) : Calc :=
  let last := sliceLast s.expression
  let expression := sliceInit s.expression
  let p1 := if last = ['('] then max (s.parenOpen - 1) 0 else s.parenOpen
  let p2 := if last = [')'] then p1 + 1 else p1
  ⟨expression, p2⟩

/-- The function `handleParen()`. -/
def handleParen (s : Calc) : Calc :=
  if s.expression = [] ∨ testOperatorOrOpenAtEnd s.expression then
    ⟨s.expression ++ ['('], s.parenOpen + 1⟩
  else if s.parenOpen > 0 then
    ⟨s.expression ++ [')'], s.parenOpen - 1⟩
  else
    ⟨s.expression ++ ['('], s.parenOpen + 1⟩

/-- The body of the two equals handlers (click on `equals`, key `Enter` or `=`),
up to the scheduling of the timer. -/
def handleEquals {ν : Type} (E : Engine ν) (s : Calc) : Calc :=
  match safeEvaluate E (if s.expression = [] then ['0'] else s.expression) with
  | .ok result => ⟨E.toStr result, s.parenOpen⟩
  | .error _ => ⟨['E', 'r', 'r', 'o', 'r'], s.parenOpen⟩

/-- The timer callback scheduled on an evaluation failure: `expression = ''`. -/
def deferredReset (s : Calc) : Calc := ⟨[], s.parenOpen⟩

/-! ## Operations and runs -/

/-- The logical operations a user can trigger, plus the firing of the timer.
The timer is only ever scheduled by a failed evaluation; allowing it to fire
at any point over-approximates the reachable states. -/
inductive Op where
  | append (value : List Char)
  | clear
  | backspace
  | toggleParen
  | equals
  | timerFires
  deriving DecidableEq, Repr

/-- One operation applied to a state. -/
def step {ν : Type} (E : Engine ν) (s : Calc) : Op → Calc
  | .append value => appendValue value s
  | .clear => handleClear s
  | .backspace => handleBackspace s
  | .toggleParen => handleParen s
  | .equals => handleEquals E s
  | .timerFires => deferredReset s

/-- A sequence of operations applied from left to right. -/
def runOps {ν : Type} (E : Engine ν) (s : Calc) (ops : List Op) : Calc :=
  ops.foldl (step E) s

/-- The sequence of `appendValue` calls with the given values, in order. -/
def appendAll (values : List (List Char)) (s : Calc) : Calc :=
  values.foldl (fun acc v => appendValue v acc) s

/-- The operator characters `{+,-,*,/}` as the specification lists them. -/
def operatorChars : List Char := ['+', '-', '*', '/']

/-- The keys `0` to `9`. -/
def isDigitChar (c : Char) : Bool :=
  '0'.toNat ≤ c.toNat && c.toNat ≤ '9'.toNat

/-! ## ECMAScript numbers

The Number type of the engine is IEEE-754 binary64 with round-to-nearest,
ties-to-even.  A finite value is kept as `mant * 2 ^ exp` in the form the
format itself uses: `|mant| < 2 ^ 53`, `-1074 ≤ exp ≤ 971`, and
`2 ^ 52 ≤ |mant|` unless `exp = -1074`.  The two zeros are not told apart:
none of the operations below, followed by `String`, can observe the sign of
a zero. -/

/-- A Number value. -/
inductive JsNumber where
  | finite (mant : Int) (exp : Int)
  | infinity (negative : Bool)
  | nan
  deriving DecidableEq, Repr

/-- The power `2 ^ k`, as a shift. -/
def pow2 (k : Nat) : Nat := 1 <<< k

/-- The power `10 ^ k`. -/
def pow10 (k : Nat) : Nat := 10 ^ k

/-- The comparison `den * pow k ≤ a` (`pow` is `pow2` or `pow10`), for an
exponent `k` of either sign. -/
def leScaled (pow : Nat → Nat) (den : Nat) (k : Int) (a : Nat) : Bool :=
  if 0 ≤ k then den * pow k.toNat ≤ a else den ≤ a * pow (-k).toNat

/-- Bisection for the largest exponent `k` with `lo ≤ k < hi` and
`pow k ≤ a / den`; `lo` when there is none. -/
def searchExponent (pow : Nat → Nat) (den a : Nat) : Nat → Int → Int → Int
  | 0, lo, _ => lo
  | fuel + 1, lo, hi =>
    if hi ≤ lo + 1 then lo
    else
      let mid := (lo + hi) / 2
      if leScaled pow den mid a then searchExponent pow den a fuel mid hi
      else searchExponent pow den a fuel lo mid

/-- The Number nearest to the rational `num / den` (`den > 0`): 53 significant
bits above `2 ^ -1022`, multiples of `2 ^ -1074` below, ties to the even
significand, infinity from `2 ^ 1024` on. -/
def roundToBinary64 (num : Int) (den : Nat) : JsNumber :=
  let a := num.natAbs
  if a = 0 then .finite 0 (-1074)
  else if leScaled pow2 den 1024 a then .infinity (decide (num < 0))
  else
    let b : Int := searchExponent pow2 den a 12 (-1022) 1024
    let e : Int := b - 52
    let n1 : Nat := if e < 0 then a * pow2 (-e).toNat else a
    let d1 : Nat := if e < 0 then den else den * pow2 e.toNat
    let q := n1 / d1
    let r := n1 % d1
    let m := if 2 * r < d1 then q else if d1 < 2 * r then q + 1 else if q % 2 = 0 then q else q + 1
    let m2 : Nat := if m = 2 ^ 53 then 2 ^ 52 else m
    let e2 : Int := if m = 2 ^ 53 then e + 1 else e
    if 971 < e2 then .infinity (decide (num < 0))
    else .finite (if num < 0 then -(m2 : Int) else (m2 : Int)) e2

/-- The Number nearest to `n * 2 ^ e`. -/
def roundScaled (n : Int) (e : Int) : JsNumber :=
  if 0 ≤ e then roundToBinary64 (n * pow2 e.toNat) 1 else roundToBinary64 n (pow2 (-e).toNat)

/-- The Number nearest to a natural number. -/
def JsNumber.ofNat (n : Nat) : JsNumber := roundToBinary64 n 1

/-- The operator `+` on Numbers. -/
def JsNumber.add : JsNumber → JsNumber → JsNumber
  | .finite m1 e1, .finite m2 e2 =>
    let e := min e1 e2
    roundScaled (m1 * pow2 (e1 - e).toNat + m2 * pow2 (e2 - e).toNat) e
  | .nan, _ => .nan
  | _, .nan => .nan
  | .infinity s, .infinity t => if s = t then .infinity s else .nan
  | .infinity s, .finite _ _ => .infinity s
  | .finite _ _, .infinity t => .infinity t

/-- The operator `*` on Numbers. -/
def JsNumber.mul : JsNumber → JsNumber → JsNumber
  | .finite m1 e1, .finite m2 e2 => roundScaled (m1 * m2) (e1 + e2)
  | .nan, _ => .nan
  | _, .nan => .nan
  | .infinity s, .infinity t => .infinity (s != t)
  | .infinity s, .finite m _ => if m = 0 then .nan else .infinity (s != decide (m < 0))
  | .finite m _, .infinity t => if m = 0 then .nan else .infinity (decide (m < 0) != t)

/-- The operator `/` on Numbers (a zero divisor counts as `+0`). -/
def JsNumber.div : JsNumber → JsNumber → JsNumber
  | .finite m1 e1, .finite m2 e2 =>
    if m2 = 0 then (if m1 = 0 then .nan else .infinity (decide (m1 < 0)))
    else
      let n : Int := if m2 < 0 then -m1 else m1
      let d : Nat := m2.natAbs
      let e := e1 - e2
      if 0 ≤ e then roundToBinary64 (n * pow2 e.toNat) d
      else roundToBinary64 n (d * pow2 (-e).toNat)
  | .nan, _ => .nan
  | _, .nan => .nan
  | .infinity _, .infinity _ => .nan
  | .infinity s, .finite m _ => .infinity (s != decide (m < 0))
  | .finite _ _, .infinity _ => .finite 0 (-1074)

/-- The function `Math.round`: the integer nearest to `x`, the larger one on a tie. -/
def JsNumber.mathRound : JsNumber → JsNumber
  | .finite m e =>
    if 0 ≤ e then .finite m e
    else roundToBinary64 (Int.fdiv (2 * m + pow2 (-e).toNat) (2 * pow2 (-e).toNat)) 1
  | .infinity s => .infinity s
  | .nan => .nan

/-- The constant `Number.EPSILON`, `2 ^ -52`. -/
def JsNumber.EPSILON : JsNumber := .finite (2 ^ 52) (-104)

/-- The expression `Math.round((result + Number.EPSILON) * 1e12) / 1e12` on a Number. -/
def JsNumber.round12 (x : JsNumber) : JsNumber :=
  (((x.add .EPSILON).mul (.ofNat (10 ^ 12))).mathRound).div (.ofNat (10 ^ 12))

/-- The positive value `mant * 2 ^ exp` as a fraction. -/
def fractionOf (mant : Nat) (exp : Int) : Nat × Nat :=
  if 0 ≤ exp then (mant * pow2 exp.toNat, 1) else (mant, pow2 (-exp).toNat)

/-- The integer `n` with `10 ^ (n - 1) ≤ num / den < 10 ^ n`, for a positive
binary64 value `num / den`. -/
def decimalExponent (num den : Nat) : Int :=
  searchExponent pow10 den num 12 (-324) 309 + 1

/-- The positive value `mant * 2 ^ exp` divided by `10 ^ (n0 - k)`, as a fraction. -/
def scaleDecimal (mant : Nat) (exp : Int) (n0 : Int) (k : Nat) : Nat × Nat :=
  let sh : Int := (k : Int) - n0
  if 0 ≤ sh then ((fractionOf mant exp).1 * pow10 sh.toNat, (fractionOf mant exp).2)
  else ((fractionOf mant exp).1, (fractionOf mant exp).2 * pow10 (-sh).toNat)

/-- The Number nearest to `c * 10 ^ (n0 - k)`. -/
def decimalToBinary64 (c : Nat) (n0 : Int) (k : Nat) : JsNumber :=
  let sh : Int := (k : Int) - n0
  if 0 ≤ sh then roundToBinary64 c (pow10 sh.toNat)
  else roundToBinary64 (c * pow10 (-sh).toNat) 1

/-- The `k`-digit decimal `s * 10 ^ (n - k)` that reads back as the positive
Number `mant * 2 ^ exp`, if there is one; of two, the one nearer to the
Number, and the even one on a tie. -/
def digitsCandidate (mant : Nat) (exp : Int) (n0 : Int) (k : Nat) : Option (Nat × Int) :=
  let v := scaleDecimal mant exp n0 k
  let f := v.1 / v.2
  let r := v.1 % v.2
  let okLow : Bool := decimalToBinary64 f n0 k == .finite mant exp
  let okHigh : Bool := decimalToBinary64 (f + 1) n0 k == .finite mant exp
  let pick : Option Nat :=
    if okLow && okHigh then
      (if 2 * r < v.2 then some f else if v.2 < 2 * r then some (f + 1)
       else if f % 2 = 0 then some f else some (f + 1))
    else if okLow then some f
    else if okHigh then some (f + 1)
    else none
  pick.map fun c => if c = pow10 k then (pow10 (k - 1), n0 + 1) else (c, n0)

/-- The search for the least number of digits `k` that has a candidate. -/
def shortestDigitsAux (mant : Nat) (exp : Int) (n0 : Int) : Nat → Nat → Nat × Int
  | 0, k => ((scaleDecimal mant exp n0 k).1 / (scaleDecimal mant exp n0 k).2, n0)
  | fuel + 1, k =>
    match digitsCandidate mant exp n0 k with
    | some r => r
    | none => shortestDigitsAux mant exp n0 fuel (k + 1)

/-- The digits `s` and the exponent `n` of `Number::toString` for the positive
Number `mant * 2 ^ exp`: as few digits as possible (17 always suffice) with
`s * 10 ^ (n - k)` reading back as the Number. -/
def shortestDigits (mant : Nat) (exp : Int) : Nat × Int :=
  shortestDigitsAux mant exp
    (decimalExponent (fractionOf mant exp).1 (fractionOf mant exp).2) 17 1

/-- The layout rules of `Number::toString` for digits `s` and exponent `n`. -/
def formatDecimal (s : Nat) (n : Int) : List Char :=
  let ds := Nat.toDigits 10 s
  let k : Int := ds.length
  if k ≤ n ∧ n ≤ 21 then ds ++ List.replicate (n - k).toNat '0'
  else if 0 < n ∧ n ≤ 21 then ds.take n.toNat ++ ['.'] ++ ds.drop n.toNat
  else if -6 < n ∧ n ≤ 0 then ['0', '.'] ++ List.replicate (-n).toNat '0' ++ ds
  else
    let ex := n - 1
    let sign := if ex < 0 then '-' else '+'
    if k = 1 then ds ++ ['e', sign] ++ Nat.toDigits 10 ex.natAbs
    else ds.take 1 ++ ['.'] ++ ds.drop 1 ++ ['e', sign] ++ Nat.toDigits 10 ex.natAbs

/-- The conversion `String(x)` of a Number. -/
def JsNumber.toStr : JsNumber → List Char
  | .nan => ['N', 'a', 'N']
  | .infinity false => ['I', 'n', 'f', 'i', 'n', 'i', 't', 'y']
  | .infinity true => ['-', 'I', 'n', 'f', 'i', 'n', 'i', 't', 'y']
  | .finite m e =>
    if m = 0 then ['0']
    else
      (if m < 0 then ['-'] else []) ++
        formatDecimal (shortestDigits m.natAbs e).1 (shortestDigits m.natAbs e).2

/-! ## The engine on JavaScript values -/

/-- The values the dynamic evaluation can return for a string of allowed
characters: a Number, or an object (a regular expression literal such as
`/1/`), kept with its `String` conversion. -/
inductive JsValue where
  | number (x : JsNumber)
  | object (text : List Char)
  deriving DecidableEq, Repr

/-- The test `typeof result === 'number' && !Number.isFinite(result)`. -/
def JsValue.isNonFiniteNumber : JsValue → Bool
  | .number (.finite _ _) => false
  | .number (.infinity _) => true
  | .number .nan => true
  | .object _ => false

/-- The expression `Math.round((result + Number.EPSILON) * 1e12) / 1e12`; for
an object `result + Number.EPSILON` is a string concatenation that does not
read as a number, and the outcome is `NaN`. -/
def JsValue.round12 : JsValue → JsValue
  | .number x => .number x.round12
  | .object _ => .number .nan

/-- The conversion `String(result)`. -/
def JsValue.toStr : JsValue → List Char
  | .number x => x.toStr
  | .object text => text

/-- A decimal integer literal of strict-mode code: `0`, or a non-zero digit
followed by digits. -/
def isDecimalIntegerLiteral : List Char → Bool
  | [] => false
  | c :: rest =>
    (c == '0' && rest.isEmpty) ||
      ('1'.toNat ≤ c.toNat && c.toNat ≤ '9'.toNat && rest.all isDigitChar)

/-- The mathematical value of a string of decimal digits. -/
def decimalValue (digits : List Char) : Nat :=
  digits.foldl (fun acc c => 10 * acc + (c.toNat - '0'.toNat)) 0

/-- The engine: Number arithmetic, `Math.round` and `String` as above; the
dynamic evaluation gives a decimal integer literal its Number value (the
Number nearest to its mathematical value) and is left to `otherEval` on
every other string. -/
def jsEngine (otherEval : List Char → Option JsValue) : Engine JsValue where
  dynamicEval := fun expr =>
    if isDecimalIntegerLiteral expr then some (.number (.ofNat (decimalValue expr)))
    else otherEval expr
  isNonFiniteNumber := JsValue.isNonFiniteNumber
  round12 := JsValue.round12
  toStr := JsValue.toStr

/-- The dynamic evaluation that throws on every string. -/
def noEval : List Char → Option JsValue := fun _ => none

/-! ## Vocabulary of the specification -/

/-- The evaluation performed by both equals handlers, the `evaluate` of the
specification: `safeEvaluate(expression || '0')`. -/
def evaluate {ν : Type} (E : Engine ν) (expr : List Char) : Except EvalError ν :=
  safeEvaluate E (if expr = [] then ['0'] else expr)

/-- The operations `append(c)` with `c` a single allowed character, `clear`,
`backspace` and `toggleParen`. -/
def isBuilderOp : Op → Bool
  | .append [c] => isAllowedChar c
  | .append _ => false
  | .clear => true
  | .backspace => true
  | .toggleParen => true
  | .equals => false
  | .timerFires => false

/-- The operations `append(c)` with `c` a digit, `.` or an operator, `backspace`,
`toggleParen` and `clear`. -/
def isKeypadOp : Op → Bool
  | .append [c] => isDigitChar c || c == '.' || isOperatorChar c
  | .append _ => false
  | .clear => true
  | .backspace => true
  | .toggleParen => true
  | .equals => false
  | .timerFires => false

/-- The operations `append(c)` with `c` a single character other than `(` and
`)`, `toggleParen`, `backspace` and `clear`. -/
def isParenFreeOp : Op → Bool
  | .append [c] => c != '(' && c != ')'
  | .append _ => false
  | .clear => true
  | .backspace => true
  | .toggleParen => true
  | .equals => false
  | .timerFires => false

/-- The counter equals the number of `(` minus the number of `)`, and no prefix
of the expression has more `)` than `(`. -/
def ParenInvariant (s : Calc) : Prop :=
  s.parenOpen = (s.expression.count '(' : Int) - (s.expression.count ')' : Int) ∧
  ∀ pre, pre <+: s.expression → pre.count ')' ≤ pre.count '('

/-- No two neighbouring characters of the string are both operators. -/
def NoAdjacentOperators (e : List Char) : Prop :=
  List.Chain' (fun a b => ¬ (isOperatorChar a = true ∧ isOperatorChar b = true)) e

/-- Every piece of the string between operator characters has at most one `.`. -/
def SingleDotPerPiece (e : List Char) : Prop :=
  ∀ seg ∈ splitOperators e, seg.count '.' ≤ 1

/-- The `append` operations that type the given characters one at a time. -/
def typeKeys (keys : List Char) : List Op :=
  keys.map fun c => .append [c]

/-! ## Auxiliary facts about the string primitives -/

/-- The outcome of `safeEvaluate`, branch by branch. -/
theorem safeEvaluate_eq {ν : Type} (E : Engine ν) (expr : List Char) :
    safeEvaluate E expr =
      if !ALLOWED expr then .error .invalidCharacters
      else
        match E.dynamicEval expr with
        | none => .error .dynamicFailure
        | some result =>
          if E.isNonFiniteNumber result then .error .mathError
          else .ok (E.round12 result) := by
  unfold safeEvaluate safeEvaluateLogged Engine.call
  by_cases h : ALLOWED expr = true
  · simp only [h, Bool.not_true, Bool.false_eq_true, if_false]
    cases E.dynamicEval expr with
    | none => rfl
    | some result =>
      simp only
      split_ifs <;> rfl
  · have h2 : ALLOWED expr = false := by simpa using h
    simp [h2]

theorem isOperatorChar_iff (c : Char) : isOperatorChar c = true ↔ c ∈ operatorChars := by
  simp [isOperatorChar, operatorChars, or_assoc]

theorem sliceLast_nil : sliceLast [] = [] := rfl

theorem sliceInit_nil : sliceInit [] = [] := rfl

theorem sliceLast_snoc (x : List Char) (c : Char) : sliceLast (x ++ [c]) = [c] := by
  simp [sliceLast]

theorem sliceInit_snoc (x : List Char) (c : Char) : sliceInit (x ++ [c]) = x := by
  simp [sliceInit]

theorem sliceInit_eq_dropLast (e : List Char) : sliceInit e = e.dropLast := by
  simp [sliceInit, List.dropLast_eq_take]

theorem eq_nil_or_snoc (e : List Char) : e = [] ∨ ∃ x c, e = x ++ [c] := by
  rcases List.eq_nil_or_concat e with h | ⟨x, c, h⟩
  · exact Or.inl h
  · exact Or.inr ⟨x, c, by simpa using h⟩

theorem testOperator_singleton (c : Char) : testOperator [c] = isOperatorChar c := by
  simp [testOperator]

theorem testOperator_nil : testOperator [] = false := rfl

theorem testOperatorOrOpenAtEnd_iff (e : List Char) :
    testOperatorOrOpenAtEnd e = true ↔
      ∃ c ∈ ['+', '-', '*', '/', '('], e.getLast? = some c := by
  unfold testOperatorOrOpenAtEnd
  cases h : e.getLast? with
  | none => simp
  | some c => simp [isOperatorOrOpenChar, or_assoc]

/-- The behaviour of `appendValue` on a single operator character. -/
theorem appendValue_operator (op : Char) (hop : isOperatorChar op = true)
    (e : List Char) (p : Int) :
    appendValue [op] ⟨e, p⟩ =
      if e = [] ∧ op ≠ '-' then ⟨e, p⟩
      else if testOperator (sliceLast e) then ⟨sliceInit e ++ [op], p⟩
      else ⟨e ++ [op], p⟩ := by
  have hdot : op ≠ '.' := by
    rintro rfl
    exact absurd hop (by decide)
  simp [appendValue, testOperator_singleton, hop, hdot]

/-- Appending an operator to an expression that ends in character `c`. -/
theorem appendValue_operator_snoc (op : Char) (hop : isOperatorChar op = true)
    (x : List Char) (c : Char) (p : Int) :
    appendValue [op] ⟨x ++ [c], p⟩ =
      if isOperatorChar c then ⟨x ++ [op], p⟩ else ⟨x ++ [c] ++ [op], p⟩ := by
  rw [appendValue_operator op hop]
  simp [sliceLast_snoc, sliceInit_snoc, testOperator_singleton]

/-- The pieces of a string without operator characters: the string itself. -/
theorem splitOperators_of_no_operator (tok : List Char)
    (h : ∀ c ∈ tok, c ∉ operatorChars) : splitOperators tok = [tok] := by
  induction tok with
  | nil => rfl
  | cons c cs ih =>
    have hc : isOperatorChar c = false := by
      have := h c (List.mem_cons_self c cs)
      rw [← isOperatorChar_iff] at this
      simpa using this
    have hcs : splitOperators cs = [cs] := ih (fun d hd => h d (List.mem_cons_of_mem c hd))
    simp [splitOperators, hc, hcs]

/-- The pieces of a string that has an operator followed by an operator-free
tail end with that tail, and there is at least one piece before it. -/
theorem splitOperators_append_operator (pre : List Char) (op : Char) (tok : List Char)
    (hop : op ∈ operatorChars) (h : ∀ c ∈ tok, c ∉ operatorChars) :
    ∃ t ts, splitOperators (pre ++ op :: tok) = (t :: ts) ++ [tok] := by
  have hop1 : isOperatorChar op = true := (isOperatorChar_iff op).2 hop
  induction pre with
  | nil =>
    refine ⟨[], [], ?_⟩
    simp [splitOperators, hop1, splitOperators_of_no_operator tok h]
  | cons c cs ih =>
    obtain ⟨t, ts, hts⟩ := ih
    by_cases hc : isOperatorChar c = true
    · refine ⟨[], t :: ts, ?_⟩
      simp [splitOperators, hc, hts]
    · refine ⟨c :: t, ts, ?_⟩
      simp [splitOperators, hc, hts]

/-- The code's token `split(...).pop()` is the part after the last operator,
or the whole string when there is no operator. -/
theorem afterLastOperator_eq (e tok : List Char)
    (htok : ∀ c ∈ tok, c ∉ operatorChars)
    (he : e = tok ∨ ∃ pre op, op ∈ operatorChars ∧ e = pre ++ op :: tok) :
    afterLastOperator e = tok := by
  rcases he with rfl | ⟨pre, op, hop, rfl⟩
  · simp [afterLastOperator, splitOperators_of_no_operator _ htok]
  · obtain ⟨t, ts, hts⟩ := splitOperators_append_operator pre op tok hop htok
    have hlast : (t :: ts ++ [tok]).getLast? = some tok := by
      rw [List.getLast?_append]
      simp
    simp only [afterLastOperator, hts, hlast, Option.getD_some]

/-- The token after the last operator is empty when the string is empty or
ends in an operator. -/
theorem afterLastOperator_of_ends_operator (e : List Char)
    (he : e = [] ∨ ∃ c ∈ operatorChars, e.getLast? = some c) :
    afterLastOperator e = [] := by
  rcases he with rfl | ⟨c, hc, hlast⟩
  · rfl
  · rcases eq_nil_or_snoc e with rfl | ⟨x, d, rfl⟩
    · simp at hlast
    · have hd : d = c := by simpa using hlast
      subst hd
      exact afterLastOperator_eq (x ++ [d]) [] (by simp) (Or.inr ⟨x, d, hc, by simp⟩)

/-- The function `appendValue` never changes `parenOpen`. -/
theorem appendValue_parenOpen (value : List Char) (s : Calc) :
    (appendValue value s).parenOpen = s.parenOpen := by
  unfold appendValue
  simp only
  split
  · rfl
  · split_ifs <;> rfl

/-- A state whose expression ends in an operator stays so, with the same
length, when a further operator is appended: the operator is replaced. -/
theorem appendValue_operator_after_operator (op1 op2 : Char)
    (h1 : op1 ∈ operatorChars) (h2 : op2 ∈ operatorChars) (x : List Char) (p : Int) :
    appendValue [op2] ⟨x ++ [op1], p⟩ = ⟨x ++ [op2], p⟩ := by
  rw [appendValue_operator_snoc op2 ((isOperatorChar_iff op2).2 h2)]
  simp [(isOperatorChar_iff op1).2 h1]

/-- Appending an operator to an expression that is non-empty and not a single
operator: the result is a non-empty front part, which starts as the expression
does, followed by that operator. -/
theorem appendValue_operator_base (op : Char) (h : op ∈ operatorChars)
    (e : List Char) (p : Int) (hne : e ≠ []) (hlone : ∀ c ∈ operatorChars, e ≠ [c]) :
    ∃ base, base ≠ [] ∧ base.head? = e.head? ∧
      appendValue [op] ⟨e, p⟩ = ⟨base ++ [op], p⟩ := by
  have hop := (isOperatorChar_iff op).2 h
  rcases eq_nil_or_snoc e with rfl | ⟨x, c, rfl⟩
  · exact absurd rfl hne
  · rw [appendValue_operator_snoc op hop]
    by_cases hc : isOperatorChar c = true
    · have hx : x ≠ [] := by
        rintro rfl
        exact hlone c ((isOperatorChar_iff c).1 hc) rfl
      refine ⟨x, hx, ?_, by simp [hc]⟩
      cases x with
      | nil => exact absurd rfl hx
      | cons b rest => rfl
    · exact ⟨x ++ [c], by simp, rfl, by simp [hc]⟩

/-- The behaviour of `appendValue` on the decimal point. -/
theorem appendValue_dot (e : List Char) (p : Int) :
    appendValue ['.'] ⟨e, p⟩ =
      if '.' ∈ afterLastOperator e then ⟨e, p⟩
      else if afterLastOperator e = [] then ⟨e ++ ['0', '.'], p⟩
      else ⟨e ++ ['.'], p⟩ := by
  by_cases h : '.' ∈ afterLastOperator e
  · simp [appendValue, h]
  · by_cases h0 : afterLastOperator e = []
    · simp [appendValue, h0, testOperator, isOperatorChar]
    · simp [appendValue, h, h0, testOperator, isOperatorChar]

/-- The function `handleBackspace` keeps `parenOpen` non-negative. -/
theorem handleBackspace_parenOpen_nonneg (s : Calc) (h : 0 ≤ s.parenOpen) :
    0 ≤ (handleBackspace s).parenOpen := by
  simp only [handleBackspace]
  split_ifs <;> omega

/-- The function `handleParen` keeps `parenOpen` non-negative. -/
theorem handleParen_parenOpen_nonneg (s : Calc) (h : 0 ≤ s.parenOpen) :
    0 ≤ (handleParen s).parenOpen := by
  unfold handleParen
  split_ifs <;> simp only <;> omega

/-- The equals handlers never change `parenOpen`. -/
theorem handleEquals_parenOpen {ν : Type} (E : Engine ν) (s : Calc) :
    (handleEquals E s).parenOpen = s.parenOpen := by
  unfold handleEquals
  split <;> rfl

/-- Every operation keeps `parenOpen` non-negative. -/
theorem step_parenOpen_nonneg {ν : Type} (E : Engine ν) (s : Calc) (op : Op)
    (h : 0 ≤ s.parenOpen) : 0 ≤ (step E s op).parenOpen := by
  cases op with
  | append value => simpa [step, appendValue_parenOpen] using h
  | clear => simp [step, handleClear]
  | backspace => exact handleBackspace_parenOpen_nonneg s h
  | toggleParen => exact handleParen_parenOpen_nonneg s h
  | equals => simpa [step, handleEquals_parenOpen] using h
  | timerFires => simpa [step, deferredReset] using h

/-- Every run from a state with non-negative `parenOpen` ends in one. -/
theorem runOps_parenOpen_nonneg {ν : Type} (E : Engine ν) (ops : List Op) :
    ∀ s : Calc, 0 ≤ s.parenOpen → 0 ≤ (runOps E s ops).parenOpen := by
  induction ops with
  | nil => intro s h; simpa [runOps] using h
  | cons op rest ih =>
    intro s h
    have := ih (step E s op) (step_parenOpen_nonneg E s op h)
    simpa [runOps] using this

/-! ## Parenthesis toggle -/

/-- C1 (as stated, refuted): from the initial state it is not the case that one
`toggleParen()` gives `"("` with balance 1 and a second one gives `"()"` with
balance 0. -/
theorem toggleParen_twice_not_closed :
    ¬ (handleParen Calc.init = ⟨['('], 1⟩ ∧
       handleParen (handleParen Calc.init) = ⟨['(', ')'], 0⟩) := by
  decide

/-- C1 (amended): from the initial state one `toggleParen()` gives `"("` with
balance 1, and a second one opens another group: `"(("` with balance 2. -/
theorem toggleParen_twice_opens_two :
    handleParen Calc.init = ⟨['('], 1⟩ ∧
    handleParen (handleParen Calc.init) = ⟨['(', '('], 2⟩ := by
  decide

/-- C2: for every state `(e, p)`, `toggleParen()` yields `(e ++ "(", p + 1)` when
`e` is empty or ends in one of `+ - * / (`; otherwise `(e ++ ")", p - 1)` when
`p > 0`; otherwise `(e ++ "(", p + 1)`.  In each case exactly one character is
appended and the balance changes by exactly one. -/
theorem handleParen_cases (e : List Char) (p : Int) :
    handleParen ⟨e, p⟩ =
      (if e = [] ∨ ∃ c ∈ ['+', '-', '*', '/', '('], e.getLast? = some c then
          ⟨e ++ ['('], p + 1⟩
        else if 0 < p then ⟨e ++ [')'], p - 1⟩
        else ⟨e ++ ['('], p + 1⟩) ∧
    (∃ c, (handleParen ⟨e, p⟩).expression = e ++ [c]) ∧
    ((handleParen ⟨e, p⟩).parenOpen = p + 1 ∨ (handleParen ⟨e, p⟩).parenOpen = p - 1) := by
  have key : handleParen ⟨e, p⟩ =
      (if e = [] ∨ ∃ c ∈ ['+', '-', '*', '/', '('], e.getLast? = some c then
          ⟨e ++ ['('], p + 1⟩
        else if 0 < p then ⟨e ++ [')'], p - 1⟩
        else ⟨e ++ ['('], p + 1⟩) := by
    unfold handleParen
    simp only [testOperatorOrOpenAtEnd_iff, gt_iff_lt]
  refine ⟨key, ?_, ?_⟩
  · rw [key]
    split_ifs
    · exact ⟨'(', rfl⟩
    · exact ⟨')', rfl⟩
    · exact ⟨'(', rfl⟩
  · rw [key]
    split_ifs
    · exact Or.inl rfl
    · exact Or.inr rfl
    · exact Or.inl rfl

/-! ## Backspace -/

/-- C8: for every state `(e, p)`, `backspace()` yields `e` without its last
character (empty stays empty), and balance `max (p - 1) 0` if the removed
character was `(`, `p + 1` if it was `)`, and `p` otherwise (also when `e` was
empty). -/
theorem handleBackspace_spec (e : List Char) (p : Int) :
    handleBackspace ⟨e, p⟩ =
      ⟨e.dropLast,
        if e.getLast? = some '(' then max (p - 1) 0
        else if e.getLast? = some ')' then p + 1
        else p⟩ := by
  rcases eq_nil_or_snoc e with h | ⟨x, c, h⟩
  · subst h
    simp [handleBackspace, sliceLast, sliceInit]
  · subst h
    simp only [handleBackspace, sliceLast_snoc, sliceInit_snoc]
    simp only [List.dropLast_concat, List.getLast?_append, List.getLast?_singleton,
      List.cons.injEq, and_true, Option.some.injEq, Option.or_some]
    by_cases h1 : c = '('
    · subst h1; simp
    · by_cases h2 : c = ')'
      · subst h2; simp
      · simp [h1, h2]

/-! ## Appending operators -/

/-- C3 (as stated, refuted): on the empty state, after `append('+')` followed by
`append('*')` the expression does not end in `*` (both calls are rejected). -/
theorem operator_pair_on_empty_rejected :
    ¬ ((appendValue ['*'] (appendValue ['+'] Calc.init)).expression.getLast? = some '*' ∧
       (appendValue ['*'] (appendValue ['+'] Calc.init)).expression.length =
         (appendValue ['+'] Calc.init).expression.length) := by
  decide

/-- C3 (amended): for every state whose expression is non-empty and is not a
single operator character, and every two operators `op1`, `op2`, after
`append(op1)` followed by `append(op2)` the expression ends in `op2`, which
has replaced `op1`: the expression is the one after `append(op1)` with its
last character (`op1`) replaced by `op2`, so it has the same length, and its
first character is still the first character of the starting expression. -/
theorem appendValue_operator_twice (e : List Char) (p : Int) (op1 op2 : Char)
    (h1 : op1 ∈ operatorChars) (h2 : op2 ∈ operatorChars)
    (hne : e ≠ []) (hlone : ∀ c ∈ operatorChars, e ≠ [c]) :
    (appendValue [op2] (appendValue [op1] ⟨e, p⟩)).expression.getLast? = some op2 ∧
    (appendValue [op1] ⟨e, p⟩).expression.getLast? = some op1 ∧
    (appendValue [op2] (appendValue [op1] ⟨e, p⟩)).expression =
      (appendValue [op1] ⟨e, p⟩).expression.dropLast ++ [op2] ∧
    (appendValue [op2] (appendValue [op1] ⟨e, p⟩)).expression.length =
      (appendValue [op1] ⟨e, p⟩).expression.length ∧
    (appendValue [op2] (appendValue [op1] ⟨e, p⟩)).expression.head? = e.head? := by
  obtain ⟨base, hbase, hhead, hx⟩ := appendValue_operator_base op1 h1 e p hne hlone
  rw [hx, appendValue_operator_after_operator op1 op2 h1 h2]
  refine ⟨by simp, by simp, by simp, by simp, ?_⟩
  rw [← hhead]
  cases base with
  | nil => exact absurd rfl hbase
  | cons b rest => rfl

/-- Witness for C3 (amended): the state `("5*", 0)` with `op1 = '-'`, `op2 = '+'`. -/
theorem appendValue_operator_twice_witness :
    (appendValue ['+'] (appendValue ['-'] ⟨['5', '*'], 0⟩)).expression.getLast? = some '+' ∧
    (appendValue ['-'] ⟨['5', '*'], 0⟩).expression.getLast? = some '-' ∧
    (appendValue ['+'] (appendValue ['-'] ⟨['5', '*'], 0⟩)).expression =
      (appendValue ['-'] ⟨['5', '*'], 0⟩).expression.dropLast ++ ['+'] ∧
    (appendValue ['+'] (appendValue ['-'] ⟨['5', '*'], 0⟩)).expression.length =
      (appendValue ['-'] ⟨['5', '*'], 0⟩).expression.length ∧
    (appendValue ['+'] (appendValue ['-'] ⟨['5', '*'], 0⟩)).expression.head? =
      (['5', '*'] : List Char).head? :=
  appendValue_operator_twice ['5', '*'] 0 '-' '+' (by decide) (by decide)
    (by decide) (by decide)

/-- C4: on the empty expression, `append(c)` for `c` one of `+ * /` leaves the
whole state unchanged, and `append('-')` gives `"-"` with the balance
unchanged. -/
theorem appendValue_operator_on_empty (p : Int) :
    appendValue ['+'] ⟨[], p⟩ = ⟨[], p⟩ ∧
    appendValue ['*'] ⟨[], p⟩ = ⟨[], p⟩ ∧
    appendValue ['/'] ⟨[], p⟩ = ⟨[], p⟩ ∧
    appendValue ['-'] ⟨[], p⟩ = ⟨['-'], p⟩ := by
  refine ⟨?_, ?_, ?_, ?_⟩ <;>
    · rw [appendValue_operator _ (by decide)]
      simp [sliceLast_nil, testOperator_nil]

/-- C5 (the code at the failing input): from the empty state, `append('-')`
followed by `append('+')` leaves the expression `"+"`, which starts with `+`. -/
theorem append_minus_then_plus_starts_with_plus :
    appendAll [['-'], ['+']] Calc.init = ⟨['+'], 0⟩ ∧
    (appendAll [['-'], ['+']] Calc.init).expression.head? = some '+' := by
  decide

/-! ## Appending the decimal point -/

/-- C6: for every expression `e`, if the part of `e` after its last operator
character (all of `e` when it has no operator) already contains `.`, then
`append('.')` leaves expression and balance unchanged. -/
theorem appendValue_dot_rejected (e tok : List Char) (p : Int)
    (htok : ∀ c ∈ tok, c ∉ operatorChars)
    (he : e = tok ∨ ∃ pre op, op ∈ operatorChars ∧ e = pre ++ op :: tok)
    (hdot : '.' ∈ tok) :
    appendValue ['.'] ⟨e, p⟩ = ⟨e, p⟩ := by
  rw [appendValue_dot, afterLastOperator_eq e tok htok he]
  simp [hdot]

/-- Witness for C6: the expression `"1+2.5"`, whose last token is `"2.5"`. -/
theorem appendValue_dot_rejected_witness :
    appendValue ['.'] ⟨['1', '+', '2', '.', '5'], 3⟩ = ⟨['1', '+', '2', '.', '5'], 3⟩ :=
  appendValue_dot_rejected ['1', '+', '2', '.', '5'] ['2', '.', '5'] 3 (by decide)
    (Or.inr ⟨['1'], '+', by decide, rfl⟩) (by decide)

/-- C7: for every expression `e` that is empty or ends in an operator character,
`append('.')` yields exactly `e ++ "0."`; and for every `e` whose token after the
last operator (all of `e` when it has no operator) is non-empty and contains no
`.`, `append('.')` yields exactly `e ++ "."`.  The balance is unchanged. -/
theorem appendValue_dot_accepted (e tok : List Char) (p : Int) :
    ((e = [] ∨ ∃ c ∈ operatorChars, e.getLast? = some c) →
      appendValue ['.'] ⟨e, p⟩ = ⟨e ++ ['0', '.'], p⟩) ∧
    ((∀ c ∈ tok, c ∉ operatorChars) →
      (e = tok ∨ ∃ pre op, op ∈ operatorChars ∧ e = pre ++ op :: tok) →
      tok ≠ [] → '.' ∉ tok →
      appendValue ['.'] ⟨e, p⟩ = ⟨e ++ ['.'], p⟩) := by
  constructor
  · intro he
    rw [appendValue_dot, afterLastOperator_of_ends_operator e he]
    simp
  · intro htok he hne hdot
    rw [appendValue_dot, afterLastOperator_eq e tok htok he]
    simp [hdot, hne]

/-- Witness for C7: `"1+"` becomes `"1+0."` and `"1+2"` becomes `"1+2."`. -/
theorem appendValue_dot_accepted_witness :
    appendValue ['.'] ⟨['1', '+'], 0⟩ = ⟨['1', '+', '0', '.'], 0⟩ ∧
    appendValue ['.'] ⟨['1', '+', '2'], 0⟩ = ⟨['1', '+', '2', '.'], 0⟩ :=
  ⟨(appendValue_dot_accepted ['1', '+'] [] 0).1 (Or.inr ⟨'+', by decide, by decide⟩),
   (appendValue_dot_accepted ['1', '+', '2'] ['2'] 0).2 (by decide)
     (Or.inr ⟨['1'], '+', by decide, rfl⟩) (by decide) (by decide)⟩

/-! ## The parenthesis counter -/

/-- C9: `parenOpen` is non-negative in every state reachable from the initial
state by any sequence of append, clear, backspace, toggleParen and equals
operations (and firings of the error timer), whatever the engine computes. -/
theorem parenOpen_nonneg_of_reachable {ν : Type} (E : Engine ν) (ops : List Op) :
    0 ≤ (runOps E Calc.init ops).parenOpen :=
  runOps_parenOpen_nonneg E ops Calc.init (by decide)

/-- C10 (the code at the failing input): in the initial state the key `(`, which
is routed to `appendValue`, puts `(` in the expression but leaves `parenOpen`
at 0, although the expression has one unclosed `(`. -/
theorem append_open_paren_keeps_parenOpen :
    appendValue ['('] Calc.init = ⟨['('], 0⟩ ∧
    (appendValue ['('] Calc.init).expression.count '(' -
      (appendValue ['('] Calc.init).expression.count ')' = 1 := by
  decide


/-! ## The shape of one append -/

/-- The possible outcomes of `appendValue` on a single character `c`: rejected,
appended after a non-operator test, `0.` inserted, operator appended, or the
trailing operator replaced. -/
theorem appendValue_single_shape (c : Char) (e : List Char) (p : Int) :
    (appendValue [c] ⟨e, p⟩).parenOpen = p ∧
    ((appendValue [c] ⟨e, p⟩).expression = e ∨
     (isOperatorChar c = false ∧ (c = '.' → '.' ∉ afterLastOperator e) ∧
        (appendValue [c] ⟨e, p⟩).expression = e ++ [c]) ∨
     (c = '.' ∧ afterLastOperator e = [] ∧
        (appendValue [c] ⟨e, p⟩).expression = e ++ ['0', '.']) ∨
     (isOperatorChar c = true ∧ (∀ x d, e = x ++ [d] → isOperatorChar d = false) ∧
        (appendValue [c] ⟨e, p⟩).expression = e ++ [c]) ∨
     (isOperatorChar c = true ∧ ∃ x d, e = x ++ [d] ∧ isOperatorChar d = true ∧
        (appendValue [c] ⟨e, p⟩).expression = x ++ [c])) := by
  refine ⟨appendValue_parenOpen _ _, ?_⟩
  by_cases hdot : c = '.'
  · subst hdot
    rw [appendValue_dot]
    by_cases h1 : '.' ∈ afterLastOperator e
    · left; simp [h1]
    · by_cases h2 : afterLastOperator e = []
      · right; right; left
        simp [h2]
      · right; left
        refine ⟨by decide, fun _ => h1, ?_⟩
        simp [h1, h2]
  · by_cases hop : isOperatorChar c = true
    · rcases eq_nil_or_snoc e with rfl | ⟨x, d, rfl⟩
      · rw [appendValue_operator c hop]
        by_cases hm : c = '-'
        · right; right; right; left
          refine ⟨hop, ?_, ?_⟩
          · intro x d h
            simp at h
          · simp [hm, sliceLast_nil, testOperator_nil]
        · left; simp [hm]
      · rw [appendValue_operator_snoc c hop]
        by_cases hd : isOperatorChar d = true
        · right; right; right; right
          exact ⟨hop, x, d, rfl, hd, by simp [hd]⟩
        · right; right; right; left
          refine ⟨hop, ?_, by simp [hd]⟩
          intro y d2 h
          have := List.append_inj_right' h rfl
          simp at this
          subst this
          simpa using hd
    · right; left
      have hop2 : isOperatorChar c = false := by simpa using hop
      refine ⟨hop2, fun h => absurd h hdot, ?_⟩
      simp [appendValue, hdot, testOperator_singleton, hop2]


/-! ## The character-set invariant -/

/-- One `appendValue` of an allowed character keeps every character allowed. -/
theorem appendValue_allowed (c : Char) (hc : isAllowedChar c = true) (s : Calc)
    (h : ∀ d ∈ s.expression, isAllowedChar d = true) :
    ∀ d ∈ (appendValue [c] s).expression, isAllowedChar d = true := by
  obtain ⟨e, p⟩ := s
  simp only at h
  rcases (appendValue_single_shape c e p).2 with h1 | ⟨_, _, h1⟩ | ⟨hd, _, h1⟩ |
    ⟨_, _, h1⟩ | ⟨_, x, d, rfl, _, h1⟩
  · rw [h1]; exact h
  · rw [h1]
    intro d hd
    rcases List.mem_append.1 hd with hd | hd
    · exact h d hd
    · simp at hd; subst hd; exact hc
  · rw [h1]
    intro d hd
    rcases List.mem_append.1 hd with hd | hd
    · exact h d hd
    · simp at hd
      rcases hd with rfl | rfl <;> decide
  · rw [h1]
    intro d hd
    rcases List.mem_append.1 hd with hd | hd
    · exact h d hd
    · simp at hd; subst hd; exact hc
  · rw [h1]
    intro d2 hd
    rcases List.mem_append.1 hd with hd | hd
    · exact h d2 (List.mem_append_left _ hd)
    · simp at hd; subst hd; exact hc

/-- The builder operations keep every character of the expression allowed. -/
theorem step_allowed {ν : Type} (E : Engine ν) (s : Calc) (op : Op)
    (hop : isBuilderOp op = true)
    (h : ∀ d ∈ s.expression, isAllowedChar d = true) :
    ∀ d ∈ (step E s op).expression, isAllowedChar d = true := by
  cases op with
  | append value =>
    match value, hop with
    | [c], hop => exact appendValue_allowed c hop s h
  | clear => simp [step, handleClear]
  | backspace =>
    intro d hd
    exact h d (List.mem_of_mem_take hd)
  | toggleParen =>
    intro d hd
    simp only [step, handleParen] at hd
    split_ifs at hd <;>
      · rcases List.mem_append.1 hd with hd | hd
        · exact h d hd
        · simp at hd; subst hd; decide
  | equals => simp [isBuilderOp] at hop
  | timerFires => simp [isBuilderOp] at hop

/-- Runs of builder operations keep every character of the expression allowed. -/
theorem runOps_allowed {ν : Type} (E : Engine ν) (ops : List Op) :
    ∀ s : Calc, (∀ op ∈ ops, isBuilderOp op = true) →
      (∀ d ∈ s.expression, isAllowedChar d = true) →
      ∀ d ∈ (runOps E s ops).expression, isAllowedChar d = true := by
  induction ops with
  | nil => intro s _ h; simpa [runOps] using h
  | cons op rest ih =>
    intro s hops h
    have h1 := step_allowed E s op (hops op (List.mem_cons_self _ _)) h
    have := ih (step E s op) (fun o ho => hops o (List.mem_cons_of_mem _ ho)) h1
    simpa [runOps] using this

/-- C11: in every state reachable from the initial state by `append(c)` with `c`
a single allowed character, `clear`, `backspace` and `toggleParen`, every
character of the expression is in the set `0-9 + - * / ( ) .` or whitespace. -/
theorem expression_allowed_of_reachable {ν : Type} (E : Engine ν) (ops : List Op)
    (hops : ∀ op ∈ ops, isBuilderOp op = true) :
    ∀ d ∈ (runOps E Calc.init ops).expression, isAllowedChar d = true :=
  runOps_allowed E ops Calc.init hops (by simp [Calc.init])

/-- Witness for C11: a run that toggles a parenthesis, appends `1`, `.`, `+`,
deletes a character and appends a space. -/
theorem expression_allowed_of_reachable_witness :
    (runOps (jsEngine noEval) Calc.init
        [.toggleParen, .append ['1'], .append ['.'], .append ['+'], .backspace,
          .append [' ']]).expression.all isAllowedChar = true :=
  List.all_eq_true.2
    (expression_allowed_of_reachable (jsEngine noEval)
      [.toggleParen, .append ['1'], .append ['.'], .append ['+'], .backspace, .append [' ']]
      (by decide))

/-! ## The whitelist of the evaluator -/

/-- C12: for every string that contains a character outside the allowed set,
the evaluation fails with the invalid-characters error, under every engine, and
the log of the strings handed to the dynamic evaluation is left as it was:
the error is thrown before any call. -/
theorem safeEvaluate_rejects_disallowed {ν : Type} (E : Engine ν) (expr : List Char)
    (h : ∃ c ∈ expr, isAllowedChar c = false) :
    safeEvaluate E expr = .error .invalidCharacters ∧
    evaluate E expr = .error .invalidCharacters ∧
    ∀ log, safeEvaluateLogged E expr log = (.error .invalidCharacters, log) := by
  obtain ⟨c, hc, hbad⟩ := h
  have hall : ALLOWED expr = false := by
    simp only [ALLOWED, Bool.and_eq_false_iff]
    right
    simp only [List.all_eq_false]
    exact ⟨c, hc, by simp [hbad]⟩
  have hne : expr ≠ [] := by
    rintro rfl
    simp at hc
  have hlog : ∀ log, safeEvaluateLogged E expr log = (.error .invalidCharacters, log) := by
    intro log
    simp [safeEvaluateLogged, hall]
  refine ⟨?_, ?_, hlog⟩
  · simp [safeEvaluate, hlog]
  · simp [evaluate, safeEvaluate, hne, hlog]

/-- Witness for C12: the string `2+a`, with `1+1` already in the log. -/
theorem safeEvaluate_rejects_disallowed_witness :
    safeEvaluate (jsEngine noEval) ['2', '+', 'a'] = .error .invalidCharacters ∧
    evaluate (jsEngine noEval) ['2', '+', 'a'] = .error .invalidCharacters ∧
    safeEvaluateLogged (jsEngine noEval) ['2', '+', 'a'] [['1', '+', '1']] =
      (.error .invalidCharacters, [['1', '+', '1']]) :=
  ⟨(safeEvaluate_rejects_disallowed (jsEngine noEval) ['2', '+', 'a']
      ⟨'a', by decide, by decide⟩).1,
   (safeEvaluate_rejects_disallowed (jsEngine noEval) ['2', '+', 'a']
      ⟨'a', by decide, by decide⟩).2.1,
   (safeEvaluate_rejects_disallowed (jsEngine noEval) ['2', '+', 'a']
      ⟨'a', by decide, by decide⟩).2.2 [['1', '+', '1']]⟩

/-- An allowed string is handed to the dynamic evaluation exactly once. -/
theorem safeEvaluateLogged_of_allowed {ν : Type} (E : Engine ν) (expr : List Char)
    (h : ALLOWED expr = true) (log : List (List Char)) :
    (safeEvaluateLogged E expr log).2 = log ++ [expr] := by
  simp only [safeEvaluateLogged, h, Bool.not_true, Bool.false_eq_true, if_false, Engine.call]
  cases E.dynamicEval expr with
  | none => rfl
  | some result =>
    simp only
    split_ifs <;> rfl

/-! ## Backspace after a parenthesis toggle -/

/-- The three branches of `handleParen`, with the test on the last character spelled out. -/
theorem handleParen_eq (e : List Char) (p : Int) :
    handleParen ⟨e, p⟩ =
      (if e = [] ∨ ∃ c ∈ ['+', '-', '*', '/', '('], e.getLast? = some c then
          ⟨e ++ ['('], p + 1⟩
        else if 0 < p then ⟨e ++ [')'], p - 1⟩
        else ⟨e ++ ['('], p + 1⟩) := by
  unfold handleParen
  simp only [testOperatorOrOpenAtEnd_iff, gt_iff_lt]

/-- C20: for every state `(e, p)` with `p ≥ 0`, `toggleParen()` followed by
`backspace()` returns exactly `(e, p)`, whichever parenthesis was inserted. -/
theorem handleBackspace_handleParen (e : List Char) (p : Int) (hp : 0 ≤ p) :
    handleBackspace (handleParen ⟨e, p⟩) = ⟨e, p⟩ := by
  rw [handleParen_eq]
  split_ifs with h1 h2
  · simp only [handleBackspace, sliceLast_snoc, sliceInit_snoc]
    simp
    omega
  · simp only [handleBackspace, sliceLast_snoc, sliceInit_snoc]
    simp
  · simp only [handleBackspace, sliceLast_snoc, sliceInit_snoc]
    simp
    omega

/-- Witness for C20: the state `("(1", 1)`, where `)` is inserted and removed. -/
theorem handleBackspace_handleParen_witness :
    handleBackspace (handleParen ⟨['(', '1'], 1⟩) = ⟨['(', '1'], 1⟩ :=
  handleBackspace_handleParen ['(', '1'] 1 (by decide)


/-! ## The counter against the parentheses of the expression -/

/-- Appending one character that is not a parenthesis keeps the invariant. -/
theorem parenInvariant_snoc {e : List Char} {p : Int} (h : ParenInvariant ⟨e, p⟩)
    (c : Char) (h1 : c ≠ '(') (h2 : c ≠ ')') : ParenInvariant ⟨e ++ [c], p⟩ := by
  obtain ⟨hp, hpre⟩ := h
  simp only at hp hpre
  refine ⟨?_, ?_⟩
  · simp [List.count_append, List.count_cons, h1, h2, hp]
  · intro pre hpre2
    rcases List.prefix_concat_iff.1 hpre2 with rfl | h3
    · have := hpre e (List.prefix_refl e)
      simpa [List.count_append, List.count_cons, h1, h2] using this
    · exact hpre pre h3

/-- Dropping the last character, when it is not a parenthesis, keeps the invariant. -/
theorem parenInvariant_init {x : List Char} {d : Char} {p : Int}
    (h : ParenInvariant ⟨x ++ [d], p⟩) (h1 : d ≠ '(') (h2 : d ≠ ')') :
    ParenInvariant ⟨x, p⟩ := by
  obtain ⟨hp, hpre⟩ := h
  simp only at hp hpre
  refine ⟨?_, ?_⟩
  · simpa [List.count_append, List.count_cons, h1, h2] using hp
  · intro pre hpre2
    exact hpre pre (hpre2.trans (List.prefix_append x [d]))

/-- An operator character is not a parenthesis. -/
theorem isOperatorChar_not_paren (c : Char) (h : isOperatorChar c = true) :
    c ≠ '(' ∧ c ≠ ')' := by
  constructor <;>
    · rintro rfl
      exact absurd h (by decide)

/-- One `appendValue` of a character other than a parenthesis keeps the invariant. -/
theorem parenInvariant_appendValue (c : Char) (h1 : c ≠ '(') (h2 : c ≠ ')') (s : Calc)
    (h : ParenInvariant s) : ParenInvariant (appendValue [c] s) := by
  obtain ⟨e, p⟩ := s
  obtain ⟨hpar, hshape⟩ := appendValue_single_shape c e p
  have hrw : appendValue [c] ⟨e, p⟩ =
      ⟨(appendValue [c] ⟨e, p⟩).expression, p⟩ := by
    cases hres : appendValue [c] ⟨e, p⟩ with
    | mk e2 p2 =>
      rw [hres] at hpar
      simp only at hpar
      rw [hpar]
  rw [hrw]
  rcases hshape with h3 | ⟨_, _, h3⟩ | ⟨hd, _, h3⟩ | ⟨_, _, h3⟩ | ⟨_, x, d, rfl, hdop, h3⟩
  · rw [h3]; exact h
  · rw [h3]; exact parenInvariant_snoc h c h1 h2
  · rw [h3]
    have := parenInvariant_snoc (parenInvariant_snoc h '0' (by decide) (by decide)) '.' (by decide) (by decide)
    simpa using this
  · rw [h3]; exact parenInvariant_snoc h c h1 h2
  · rw [h3]
    obtain ⟨hd1, hd2⟩ := isOperatorChar_not_paren d hdop
    exact parenInvariant_snoc (parenInvariant_init h hd1 hd2) c h1 h2

/-- The function `handleParen` keeps the invariant. -/
theorem parenInvariant_handleParen (s : Calc) (h : ParenInvariant s) :
    ParenInvariant (handleParen s) := by
  obtain ⟨e, p⟩ := s
  obtain ⟨hp, hpre⟩ := h
  simp only at hp hpre
  have hopen : ParenInvariant ⟨e ++ ['('], p + 1⟩ := by
    refine ⟨?_, ?_⟩
    · simp [List.count_append, hp]
      ring
    · intro pre hpre2
      rcases List.prefix_concat_iff.1 hpre2 with rfl | h3
      · have := hpre e (List.prefix_refl e)
        simp [List.count_append]
        omega
      · exact hpre pre h3
  rw [handleParen_eq]
  split_ifs with h1 h2
  · exact hopen
  · refine ⟨?_, ?_⟩
    · simp [List.count_append, hp]
      ring
    · intro pre hpre2
      rcases List.prefix_concat_iff.1 hpre2 with rfl | h3
      · simp [List.count_append]
        omega
      · exact hpre pre h3
  · exact hopen

/-- The function `handleBackspace` keeps the invariant. -/
theorem parenInvariant_handleBackspace (s : Calc) (h : ParenInvariant s) :
    ParenInvariant (handleBackspace s) := by
  obtain ⟨e, p⟩ := s
  rcases eq_nil_or_snoc e with rfl | ⟨x, d, rfl⟩
  · simpa [handleBackspace, sliceLast, sliceInit] using h
  · obtain ⟨hp, hpre⟩ := h
    simp only at hp hpre
    have hx : ∀ pre, pre <+: x → pre.count ')' ≤ pre.count '(' :=
      fun pre hpre2 => hpre pre (hpre2.trans (List.prefix_append x [d]))
    have hall := hpre (x ++ [d]) (List.prefix_refl _)
    have hxx := hx x (List.prefix_refl x)
    simp only [handleBackspace, sliceLast_snoc, sliceInit_snoc]
    refine ⟨?_, hx⟩
    by_cases h1 : d = '('
    · subst h1
      simp [List.count_append] at hp hall ⊢
      omega
    · by_cases h2 : d = ')'
      · subst h2
        simp [List.count_append] at hp hall ⊢
        omega
      · simp [List.count_append, List.count_cons, h1, h2] at hp hall ⊢
        omega

/-- Every operation of `isParenFreeOp` keeps the invariant. -/
theorem parenInvariant_step {ν : Type} (E : Engine ν) (s : Calc) (op : Op)
    (hop : isParenFreeOp op = true) (h : ParenInvariant s) :
    ParenInvariant (step E s op) := by
  cases op with
  | append value =>
    match value, hop with
    | [c], hop =>
      simp only [isParenFreeOp, Bool.and_eq_true, bne_iff_ne, ne_eq] at hop
      exact parenInvariant_appendValue c hop.1 hop.2 s h
  | clear =>
    refine ⟨by simp [step, handleClear], ?_⟩
    intro pre hpre
    simp only [step, handleClear, List.prefix_nil] at hpre
    subst hpre
    simp
  | backspace => exact parenInvariant_handleBackspace s h
  | toggleParen => exact parenInvariant_handleParen s h
  | equals => simp [isParenFreeOp] at hop
  | timerFires => simp [isParenFreeOp] at hop

/-- Runs of operations of `isParenFreeOp` keep the invariant. -/
theorem parenInvariant_runOps {ν : Type} (E : Engine ν) (ops : List Op) :
    ∀ s : Calc, (∀ op ∈ ops, isParenFreeOp op = true) → ParenInvariant s →
      ParenInvariant (runOps E s ops) := by
  induction ops with
  | nil => intro s _ h; simpa [runOps] using h
  | cons op rest ih =>
    intro s hops h
    have h1 := parenInvariant_step E s op (hops op (List.mem_cons_self _ _)) h
    have := ih (step E s op) (fun o ho => hops o (List.mem_cons_of_mem _ ho)) h1
    simpa [runOps] using this

/-- C19: in every state reachable from the initial state using only `append`
with characters other than `(` and `)`, `toggleParen`, `backspace` and `clear`,
the counter equals the number of `(` minus the number of `)` in the
expression, every prefix of the expression has at least as many `(` as `)`,
and the counter is at least 1 whenever the expression ends in `(` (so the
floor at 0 of `backspace` is never taken). -/
theorem parenOpen_eq_count_of_reachable {ν : Type} (E : Engine ν) (ops : List Op)
    (hops : ∀ op ∈ ops, isParenFreeOp op = true) :
    (runOps E Calc.init ops).parenOpen =
      ((runOps E Calc.init ops).expression.count '(' : Int) -
        ((runOps E Calc.init ops).expression.count ')' : Int) ∧
    (∀ pre, pre <+: (runOps E Calc.init ops).expression → pre.count ')' ≤ pre.count '(') ∧
    ((runOps E Calc.init ops).expression.getLast? = some '(' →
      1 ≤ (runOps E Calc.init ops).parenOpen) := by
  have hinit : ParenInvariant Calc.init := by
    refine ⟨by simp [Calc.init], ?_⟩
    intro pre hpre
    simp only [Calc.init, List.prefix_nil] at hpre
    subst hpre
    simp
  obtain ⟨hp, hpre⟩ := parenInvariant_runOps E ops Calc.init hops hinit
  refine ⟨hp, hpre, ?_⟩
  intro hlast
  rcases eq_nil_or_snoc (runOps E Calc.init ops).expression with h | ⟨x, d, h⟩
  · rw [h] at hlast
    simp at hlast
  · rw [h] at hlast hp hpre
    have hd : d = '(' := by simpa using hlast
    subst hd
    have hx := hpre x (List.prefix_append x ['('])
    rw [hp]
    simp [List.count_append]
    omega


/-- Witness for C19: the run `toggleParen`, `append('1')`, `toggleParen`,
`backspace`, which ends in `("(1", 1)`. -/
theorem parenOpen_eq_count_of_reachable_witness :
    (runOps (jsEngine noEval) Calc.init
        [.toggleParen, .append ['1'], .toggleParen, .backspace]).parenOpen =
      ((runOps (jsEngine noEval) Calc.init
        [.toggleParen, .append ['1'], .toggleParen, .backspace]).expression.count '(' : Int) -
        ((runOps (jsEngine noEval) Calc.init
        [.toggleParen, .append ['1'], .toggleParen, .backspace]).expression.count ')' : Int) ∧
    (∀ pre, pre <+: (runOps (jsEngine noEval) Calc.init
        [.toggleParen, .append ['1'], .toggleParen, .backspace]).expression →
      pre.count ')' ≤ pre.count '(') ∧
    ((runOps (jsEngine noEval) Calc.init
        [.toggleParen, .append ['1'], .toggleParen, .backspace]).expression.getLast? =
          some '(' →
      1 ≤ (runOps (jsEngine noEval) Calc.init
        [.toggleParen, .append ['1'], .toggleParen, .backspace]).parenOpen) :=
  parenOpen_eq_count_of_reachable (jsEngine noEval)
    [.toggleParen, .append ['1'], .toggleParen, .backspace] (by decide)

/-! ## No two operators in a row -/

theorem noAdjacent_snoc_of_not_operator {e : List Char}
    (h : NoAdjacentOperators e) (c : Char) (hc : isOperatorChar c = false) :
    NoAdjacentOperators (e ++ [c]) := by
  refine List.chain'_append.2 ⟨h, List.chain'_singleton c, ?_⟩
  intro x _ y hy
  simp only [List.head?_cons, Option.mem_def, Option.some.injEq] at hy
  subst hy
  simp [hc]

theorem noAdjacent_init {x : List Char} {d : Char}
    (h : NoAdjacentOperators (x ++ [d])) : NoAdjacentOperators x :=
  (List.chain'_append.1 h).1

theorem noAdjacent_replace {x : List Char} {d : Char}
    (h : NoAdjacentOperators (x ++ [d])) (hd : isOperatorChar d = true) (c : Char) :
    NoAdjacentOperators (x ++ [c]) := by
  obtain ⟨hx, _, hlast⟩ := List.chain'_append.1 h
  refine List.chain'_append.2 ⟨hx, List.chain'_singleton c, ?_⟩
  intro y hy z _
  have := hlast y hy d (by simp)
  intro hyz
  exact this ⟨hyz.1, hd⟩

theorem noAdjacent_snoc_after_not_operator {e : List Char}
    (h : NoAdjacentOperators e) (hlast : ∀ x d, e = x ++ [d] → isOperatorChar d = false)
    (c : Char) : NoAdjacentOperators (e ++ [c]) := by
  refine List.chain'_append.2 ⟨h, List.chain'_singleton c, ?_⟩
  intro y hy z _
  rcases eq_nil_or_snoc e with rfl | ⟨x, d, rfl⟩
  · simp at hy
  · have hyd : y = d := by simpa [eq_comm] using hy
    subst hyd
    simp [hlast x y rfl]

/-- One `appendValue` of a single character keeps operators apart. -/
theorem noAdjacent_appendValue (c : Char) (s : Calc)
    (h : NoAdjacentOperators s.expression) :
    NoAdjacentOperators (appendValue [c] s).expression := by
  obtain ⟨e, p⟩ := s
  simp only at h
  rcases (appendValue_single_shape c e p).2 with h3 | ⟨hc, _, h3⟩ | ⟨hd, _, h3⟩ |
    ⟨_, hlast, h3⟩ | ⟨_, x, d, rfl, hdop, h3⟩
  · rw [h3]; exact h
  · rw [h3]; exact noAdjacent_snoc_of_not_operator h c hc
  · rw [h3]
    have := noAdjacent_snoc_of_not_operator (noAdjacent_snoc_of_not_operator h '0' (by decide)) '.' (by decide)
    simpa using this
  · rw [h3]; exact noAdjacent_snoc_after_not_operator h hlast c
  · rw [h3]; exact noAdjacent_replace h hdop c

/-- Every keypad operation keeps operators apart. -/
theorem noAdjacent_step {ν : Type} (E : Engine ν) (s : Calc) (op : Op)
    (hop : isKeypadOp op = true) (h : NoAdjacentOperators s.expression) :
    NoAdjacentOperators (step E s op).expression := by
  cases op with
  | append value =>
    match value, hop with
    | [c], _ => exact noAdjacent_appendValue c s h
  | clear => exact List.chain'_nil
  | backspace =>
    exact List.Chain'.prefix h (List.take_prefix _ _)
  | toggleParen =>
    simp only [step, handleParen]
    split_ifs
    · exact noAdjacent_snoc_of_not_operator h '(' (by decide)
    · exact noAdjacent_snoc_of_not_operator h ')' (by decide)
    · exact noAdjacent_snoc_of_not_operator h '(' (by decide)
  | equals => simp [isKeypadOp] at hop
  | timerFires => simp [isKeypadOp] at hop

/-- Runs of keypad operations keep operators apart. -/
theorem noAdjacent_runOps {ν : Type} (E : Engine ν) (ops : List Op) :
    ∀ s : Calc, (∀ op ∈ ops, isKeypadOp op = true) → NoAdjacentOperators s.expression →
      NoAdjacentOperators (runOps E s ops).expression := by
  induction ops with
  | nil => intro s _ h; simpa [runOps] using h
  | cons op rest ih =>
    intro s hops h
    have h1 := noAdjacent_step E s op (hops op (List.mem_cons_self _ _)) h
    have := ih (step E s op) (fun o ho => hops o (List.mem_cons_of_mem _ ho)) h1
    simpa [runOps] using this

/-- C17: in every state reachable from the empty state by `append` (digits, `.`,
operators), `backspace`, `toggleParen` and `clear`, the expression never has
two adjacent operator characters. -/
theorem no_adjacent_operators_of_reachable {ν : Type} (E : Engine ν) (ops : List Op)
    (hops : ∀ op ∈ ops, isKeypadOp op = true) :
    ∀ pre a b post, (runOps E Calc.init ops).expression = pre ++ a :: b :: post →
      ¬ (a ∈ operatorChars ∧ b ∈ operatorChars) := by
  have h := noAdjacent_runOps E ops Calc.init hops List.chain'_nil
  intro pre a b post heq
  rw [heq] at h
  have hab := (List.chain'_append_cons_cons.1 h).2.1
  rw [← isOperatorChar_iff, ← isOperatorChar_iff]
  exact hab


/-- Witness for C17: the run `5`, `*`, `-`, `3`, which ends in `5-3`. -/
theorem no_adjacent_operators_of_reachable_witness :
    ¬ ∃ pre a b post,
      (runOps (jsEngine noEval) Calc.init
        [.append ['5'], .append ['*'], .append ['-'], .append ['3']]).expression =
          pre ++ a :: b :: post ∧
      a ∈ operatorChars ∧ b ∈ operatorChars :=
  fun ⟨pre, a, b, post, h, hab⟩ =>
    no_adjacent_operators_of_reachable (jsEngine noEval)
      [.append ['5'], .append ['*'], .append ['-'], .append ['3']] (by decide)
      pre a b post h hab

/-! ## At most one decimal point per number -/

/-- The pieces of `x`, and of `x` with one more character: an operator opens a
new empty piece, any other character extends the last piece. -/
theorem splitOperators_snoc (x : List Char) :
    ∃ init last, splitOperators x = init ++ [last] ∧
      (∀ c, isOperatorChar c = true → splitOperators (x ++ [c]) = init ++ [last, []]) ∧
      (∀ c, isOperatorChar c = false → splitOperators (x ++ [c]) = init ++ [last ++ [c]]) := by
  induction x with
  | nil =>
    refine ⟨[], [], rfl, ?_, ?_⟩
    · intro c hc
      simp [splitOperators, hc]
    · intro c hc
      simp [splitOperators, hc]
  | cons d x ih =>
    obtain ⟨init, last, h0, h1, h2⟩ := ih
    by_cases hd : isOperatorChar d = true
    · refine ⟨[] :: init, last, ?_, ?_, ?_⟩
      · simp [splitOperators, hd, h0]
      · intro c hc
        simp [splitOperators, hd, h1 c hc]
      · intro c hc
        simp [splitOperators, hd, h2 c hc]
    · cases init with
      | nil =>
        refine ⟨[], d :: last, ?_, ?_, ?_⟩
        · simp [splitOperators, hd, h0]
        · intro c hc
          simp [splitOperators, hd, h1 c hc]
        · intro c hc
          simp [splitOperators, hd, h2 c hc]
      | cons t ts =>
        refine ⟨(d :: t) :: ts, last, ?_, ?_, ?_⟩
        · simp [splitOperators, hd, h0]
        · intro c hc
          simp [splitOperators, hd, h1 c hc]
        · intro c hc
          simp [splitOperators, hd, h2 c hc]

/-- The last piece of `init ++ [last]`. -/
theorem getLast_getD_snoc (init : List (List Char)) (last : List Char) :
    (init ++ [last]).getLast?.getD [] = last := by
  simp

theorem singleDot_snoc_operator {e : List Char} (h : SingleDotPerPiece e)
    (c : Char) (hc : isOperatorChar c = true) : SingleDotPerPiece (e ++ [c]) := by
  obtain ⟨init, last, h0, h1, _⟩ := splitOperators_snoc e
  intro seg hseg
  rw [h1 c hc] at hseg
  have hmem : seg ∈ init ++ [last] ∨ seg = [] := by
    simp only [List.mem_append, List.mem_cons, List.mem_singleton, List.not_mem_nil,
      or_false] at hseg ⊢
    tauto
  rcases hmem with hmem | rfl
  · exact h seg (h0 ▸ hmem)
  · simp

theorem singleDot_snoc_plain {e : List Char} (h : SingleDotPerPiece e)
    (c : Char) (hc : isOperatorChar c = false) (hdot : c = '.' → '.' ∉ afterLastOperator e) :
    SingleDotPerPiece (e ++ [c]) := by
  obtain ⟨init, last, h0, _, h2⟩ := splitOperators_snoc e
  have hlast : afterLastOperator e = last := by
    simp only [afterLastOperator, h0]
    exact getLast_getD_snoc init last
  intro seg hseg
  rw [h2 c hc] at hseg
  rcases List.mem_append.1 hseg with hmem | hmem
  · exact h seg (h0 ▸ List.mem_append_left _ hmem)
  · simp only [List.mem_singleton] at hmem
    subst hmem
    have hl := h last (h0 ▸ List.mem_append_right _ (List.mem_singleton_self last))
    by_cases hcd : c = '.'
    · have hnot := hdot hcd
      rw [hlast] at hnot
      subst hcd
      simp [List.count_append, List.count_eq_zero_of_not_mem hnot]
    · simp [List.count_append, List.count_cons, hcd]
      exact hl

theorem singleDot_init {x : List Char} {d : Char}
    (h : SingleDotPerPiece (x ++ [d])) : SingleDotPerPiece x := by
  obtain ⟨init, last, h0, h1, h2⟩ := splitOperators_snoc x
  intro seg hseg
  rw [h0] at hseg
  by_cases hd : isOperatorChar d = true
  · apply h seg
    rw [h1 d hd]
    simp only [List.mem_append, List.mem_cons, List.mem_singleton, List.not_mem_nil,
      or_false] at hseg ⊢
    tauto
  · have hd2 : isOperatorChar d = false := by simpa using hd
    rcases List.mem_append.1 hseg with hmem | hmem
    · apply h seg
      rw [h2 d hd2]
      exact List.mem_append_left _ hmem
    · simp only [List.mem_singleton] at hmem
      subst hmem
      have := h (seg ++ [d]) (by rw [h2 d hd2]; simp)
      simp only [List.count_append] at this
      omega

/-- One `appendValue` of a single character keeps one `.` per piece. -/
theorem singleDot_appendValue (c : Char) (s : Calc)
    (h : SingleDotPerPiece s.expression) :
    SingleDotPerPiece (appendValue [c] s).expression := by
  obtain ⟨e, p⟩ := s
  simp only at h
  rcases (appendValue_single_shape c e p).2 with h3 | ⟨hc, hdot, h3⟩ | ⟨hd, hempty, h3⟩ |
    ⟨hc, _, h3⟩ | ⟨hc, x, d, rfl, hdop, h3⟩
  · rw [h3]; exact h
  · rw [h3]; exact singleDot_snoc_plain h c hc hdot
  · rw [h3]
    have h0 : SingleDotPerPiece (e ++ ['0']) :=
      singleDot_snoc_plain h '0' (by decide) (fun hh => absurd hh (by decide))
    have hafter : afterLastOperator (e ++ ['0']) = ['0'] := by
      obtain ⟨init, last, hs0, _, hs2⟩ := splitOperators_snoc e
      have hlast : afterLastOperator e = last := by
        simp only [afterLastOperator, hs0]
        exact getLast_getD_snoc init last
      rw [hempty] at hlast
      subst hlast
      simp only [afterLastOperator, hs2 '0' (by decide)]
      simp
    have := singleDot_snoc_plain h0 '.' (by decide) (fun _ => by rw [hafter]; decide)
    simpa using this
  · rw [h3]; exact singleDot_snoc_operator h c hc
  · rw [h3]; exact singleDot_snoc_operator (singleDot_init h) c hc

/-- Every keypad operation keeps one `.` per piece. -/
theorem singleDot_step {ν : Type} (E : Engine ν) (s : Calc) (op : Op)
    (hop : isKeypadOp op = true) (h : SingleDotPerPiece s.expression) :
    SingleDotPerPiece (step E s op).expression := by
  cases op with
  | append value =>
    match value, hop with
    | [c], _ => exact singleDot_appendValue c s h
  | clear =>
    intro seg hseg
    simp only [step, handleClear, splitOperators, List.mem_singleton] at hseg
    subst hseg
    simp
  | backspace =>
    obtain ⟨e, p⟩ := s
    rcases eq_nil_or_snoc e with rfl | ⟨x, d, rfl⟩
    · simpa [step, handleBackspace, sliceInit] using h
    · simp only [step, handleBackspace, sliceInit_snoc]
      exact singleDot_init h
  | toggleParen =>
    simp only [step, handleParen]
    split_ifs
    · exact singleDot_snoc_plain h '(' (by decide) (fun hh => absurd hh (by decide))
    · exact singleDot_snoc_plain h ')' (by decide) (fun hh => absurd hh (by decide))
    · exact singleDot_snoc_plain h '(' (by decide) (fun hh => absurd hh (by decide))
  | equals => simp [isKeypadOp] at hop
  | timerFires => simp [isKeypadOp] at hop

/-- Runs of keypad operations keep one `.` per piece. -/
theorem singleDot_runOps {ν : Type} (E : Engine ν) (ops : List Op) :
    ∀ s : Calc, (∀ op ∈ ops, isKeypadOp op = true) → SingleDotPerPiece s.expression →
      SingleDotPerPiece (runOps E s ops).expression := by
  induction ops with
  | nil => intro s _ h; simpa [runOps] using h
  | cons op rest ih =>
    intro s hops h
    have h1 := singleDot_step E s op (hops op (List.mem_cons_self _ _)) h
    have := ih (step E s op) (fun o ho => hops o (List.mem_cons_of_mem _ ho)) h1
    simpa [runOps] using this


/-- The result of `splitOperators` is never empty. -/
theorem splitOperators_ne_nil (e : List Char) : splitOperators e ≠ [] := by
  obtain ⟨init, last, h0, _, _⟩ := splitOperators_snoc e
  rw [h0]
  simp

/-- An operator-free string at the front of `e` is the front of the first piece. -/
theorem splitOperators_prefix (seg : List Char) (hseg : ∀ c ∈ seg, c ∉ operatorChars)
    (post : List Char) :
    ∃ t ts, splitOperators (seg ++ post) = (seg ++ t) :: ts := by
  induction seg with
  | nil =>
    cases h : splitOperators post with
    | nil => exact absurd h (splitOperators_ne_nil post)
    | cons t ts => exact ⟨t, ts, by simpa using h⟩
  | cons c seg ih =>
    obtain ⟨t, ts, h⟩ := ih (fun d hd => hseg d (List.mem_cons_of_mem c hd))
    have hc : isOperatorChar c = false := by
      have := hseg c (List.mem_cons_self c seg)
      rw [← isOperatorChar_iff] at this
      simpa using this
    exact ⟨t, ts, by simp [splitOperators, hc, h]⟩

/-- Every operator-free stretch of `e` lies inside one piece of `e`. -/
theorem exists_piece_of_operator_free (pre seg post : List Char)
    (hseg : ∀ c ∈ seg, c ∉ operatorChars) :
    ∃ t ∈ splitOperators (pre ++ (seg ++ post)), seg <:+: t := by
  induction pre with
  | nil =>
    obtain ⟨t, ts, h⟩ := splitOperators_prefix seg hseg post
    refine ⟨seg ++ t, ?_, List.infix_append' [] seg t⟩
    simp [h]
  | cons d pre ih =>
    obtain ⟨t, ht, hinf⟩ := ih
    by_cases hd : isOperatorChar d = true
    · refine ⟨t, ?_, hinf⟩
      simp only [List.cons_append, splitOperators, hd, if_true]
      exact List.mem_cons_of_mem _ ht
    · cases h : splitOperators (pre ++ (seg ++ post)) with
      | nil => exact absurd h (splitOperators_ne_nil _)
      | cons t0 ts =>
        rw [h] at ht
        rcases List.mem_cons.1 ht with rfl | hmem
        · refine ⟨d :: t, ?_, ?_⟩
          · simp [splitOperators, hd, h]
          · exact hinf.trans (List.suffix_cons d t).isInfix
        · refine ⟨t, ?_, hinf⟩
          simp [splitOperators, hd, h, hmem]

/-- C18: in every state reachable from the empty state by `append` (digits, `.`,
operators), `backspace`, `toggleParen` and `clear`, every piece of the
expression between operator characters has at most one `.`; equally, every
operator-free stretch of the expression has at most one `.`. -/
theorem single_dot_per_number_of_reachable {ν : Type} (E : Engine ν) (ops : List Op)
    (hops : ∀ op ∈ ops, isKeypadOp op = true) :
    (∀ seg ∈ splitOperators (runOps E Calc.init ops).expression, seg.count '.' ≤ 1) ∧
    ∀ pre seg post, (runOps E Calc.init ops).expression = pre ++ seg ++ post →
      (∀ c ∈ seg, c ∉ operatorChars) → seg.count '.' ≤ 1 := by
  have hinit : SingleDotPerPiece Calc.init.expression := by
    intro seg hseg
    simp only [Calc.init, splitOperators, List.mem_singleton] at hseg
    subst hseg
    simp
  have h := singleDot_runOps E ops Calc.init hops hinit
  refine ⟨h, ?_⟩
  intro pre seg post heq hseg
  obtain ⟨t, ht, hinf⟩ := exists_piece_of_operator_free pre seg post hseg
  rw [← List.append_assoc, ← heq] at ht
  exact (hinf.sublist.count_le '.').trans (h t ht)


/-- Witness for C18: the run `1`, `.`, `.`, `5`, `+`, `.`, which ends in `1.5+0.`. -/
theorem single_dot_per_number_of_reachable_witness :
    (∀ seg ∈ splitOperators (runOps (jsEngine noEval) Calc.init
        [.append ['1'], .append ['.'], .append ['.'], .append ['5'], .append ['+'],
          .append ['.']]).expression, seg.count '.' ≤ 1) ∧
    ∀ pre seg post, (runOps (jsEngine noEval) Calc.init
        [.append ['1'], .append ['.'], .append ['.'], .append ['5'], .append ['+'],
          .append ['.']]).expression = pre ++ seg ++ post →
      (∀ c ∈ seg, c ∉ operatorChars) → seg.count '.' ≤ 1 :=
  single_dot_per_number_of_reachable (jsEngine noEval)
    [.append ['1'], .append ['.'], .append ['.'], .append ['5'], .append ['+'], .append ['.']]
    (by decide)

/-! ## Evaluation of the empty expression -/

/-- The dynamic evaluation of a decimal integer literal under `jsEngine`. -/
theorem jsEngine_dynamicEval_literal (otherEval : List Char → Option JsValue)
    (expr : List Char) (h : isDecimalIntegerLiteral expr = true) :
    (jsEngine otherEval).dynamicEval expr = some (.number (.ofNat (decimalValue expr))) := by
  simp [jsEngine, h]

/-- The evaluation of an allowed decimal integer literal whose Number is finite. -/
theorem safeEvaluate_literal (otherEval : List Char → Option JsValue) (expr : List Char)
    (hall : ALLOWED expr = true) (hlit : isDecimalIntegerLiteral expr = true)
    (hfin : JsValue.isNonFiniteNumber (.number (.ofNat (decimalValue expr))) = false) :
    safeEvaluate (jsEngine otherEval) expr =
      .ok (.number (JsNumber.round12 (.ofNat (decimalValue expr)))) := by
  have hdyn := jsEngine_dynamicEval_literal otherEval expr hlit
  have hfin2 : (jsEngine otherEval).isNonFiniteNumber
      (.number (.ofNat (decimalValue expr))) = false := hfin
  simp only [safeEvaluate_eq, hall, hdyn, hfin2]
  rfl

set_option maxRecDepth 4000 in
/-- C13: the evaluation of the empty string substitutes the literal `0`
(`expression || '0'`), succeeds and returns the Number 0, whose string is `0`;
this holds however the engine evaluates other strings. -/
theorem evaluate_empty_returns_zero (otherEval : List Char → Option JsValue) :
    evaluate (jsEngine otherEval) [] = safeEvaluate (jsEngine otherEval) ['0'] ∧
    evaluate (jsEngine otherEval) [] = .ok (.number (.finite 0 (-1074))) ∧
    JsValue.toStr (.number (.finite 0 (-1074))) = ['0'] := by
  have h0 : JsNumber.round12 (.ofNat (decimalValue ['0'])) = .finite 0 (-1074) := by decide
  refine ⟨rfl, ?_, by decide⟩
  have := safeEvaluate_literal otherEval ['0'] (by decide) (by decide) (by decide)
  rw [h0] at this
  simpa [evaluate] using this

/-! ## The rounding step -/

set_option maxRecDepth 4000 in
/-- C14 (the code at the failing input): for the raw result 1234567890123 the
rounding step returns 1234567890123 itself, whose decimal representation has
13 significant digits, and not the value 1234567890120 rounded to 12
significant digits; `equals()` on the expression `1234567890123` shows it. -/
theorem round12_keeps_thirteen_digits (otherEval : List Char → Option JsValue) :
    JsNumber.round12 (.ofNat 1234567890123) = .ofNat 1234567890123 ∧
    JsNumber.round12 (.ofNat 1234567890123) ≠ .ofNat 1234567890120 ∧
    (JsNumber.round12 (.ofNat 1234567890123)).toStr = ['1', '2', '3', '4', '5', '6', '7', '8', '9', '0', '1', '2', '3'] ∧
    handleEquals (jsEngine otherEval) ⟨['1', '2', '3', '4', '5', '6', '7', '8', '9', '0', '1', '2', '3'], 0⟩ = ⟨['1', '2', '3', '4', '5', '6', '7', '8', '9', '0', '1', '2', '3'], 0⟩ := by
  have h1 : JsNumber.round12 (.ofNat 1234567890123) = .ofNat 1234567890123 := by decide
  have h2 : JsNumber.round12 (.ofNat 1234567890123) ≠ .ofNat 1234567890120 := by decide
  have h3 : (JsNumber.round12 (.ofNat 1234567890123)).toStr = ['1', '2', '3', '4', '5', '6', '7', '8', '9', '0', '1', '2', '3'] := by decide
  refine ⟨h1, h2, h3, ?_⟩
  have hval : decimalValue ['1', '2', '3', '4', '5', '6', '7', '8', '9', '0', '1', '2', '3'] = 1234567890123 := by decide
  have := safeEvaluate_literal otherEval ['1', '2', '3', '4', '5', '6', '7', '8', '9', '0', '1', '2', '3'] (by decide) (by decide) (by decide)
  rw [hval] at this
  simp only [handleEquals, List.cons_ne_nil, if_false, this]
  simp only [jsEngine, JsValue.toStr, h3]

/-! ## A failed evaluation -/

/-- C15 (what the code does in every failing state): when the evaluation of
the current expression fails, `equals()` sets the expression to `Error` and
the timer then empties the expression, but both leave `parenOpen` as it was. -/
theorem failed_equals_keeps_parenOpen {ν : Type} (E : Engine ν) (s : Calc)
    (hfail : ∃ err, evaluate E s.expression = .error err) :
    handleEquals E s = ⟨['E', 'r', 'r', 'o', 'r'], s.parenOpen⟩ ∧
    deferredReset (handleEquals E s) = ⟨[], s.parenOpen⟩ := by
  obtain ⟨err, herr⟩ := hfail
  have h : handleEquals E s = ⟨['E', 'r', 'r', 'o', 'r'], s.parenOpen⟩ := by
    simp only [evaluate] at herr
    simp only [handleEquals, herr]
  exact ⟨h, by rw [h]; rfl⟩

/-- Witness for C15: after one `toggleParen()` the state is `("(", 1)`; the
evaluation of `(` fails, and after the timer the state is `("", 1)`. -/
theorem failed_equals_keeps_parenOpen_witness :
    handleEquals (jsEngine noEval) (handleParen Calc.init) =
      ⟨['E', 'r', 'r', 'o', 'r'], 1⟩ ∧
    deferredReset (handleEquals (jsEngine noEval) (handleParen Calc.init)) = ⟨[], 1⟩ :=
  failed_equals_keeps_parenOpen (jsEngine noEval) (handleParen Calc.init)
    ⟨.dynamicFailure, rfl⟩


/-! ## Chaining from a formatted result -/

/-- A run that only types characters is a sequence of `appendValue` calls. -/
theorem runOps_typeKeys {ν : Type} (E : Engine ν) (keys : List Char) :
    ∀ s : Calc, runOps E s (typeKeys keys) = appendAll (keys.map fun c => [c]) s := by
  induction keys with
  | nil => intro s; rfl
  | cons c keys ih =>
    intro s
    have := ih (appendValue [c] s)
    simpa [runOps, typeKeys, appendAll, step] using this

/-- A run in two parts. -/
theorem runOps_append {ν : Type} (E : Engine ν) (s : Calc) (ops1 ops2 : List Op) :
    runOps E s (ops1 ++ ops2) = runOps E (runOps E s ops1) ops2 := by
  simp [runOps, List.foldl_append]

/-- The equals handlers on an allowed decimal integer literal with a finite Number. -/
theorem handleEquals_literal (otherEval : List Char → Option JsValue) (expr : List Char)
    (p : Int) (hall : ALLOWED expr = true) (hlit : isDecimalIntegerLiteral expr = true)
    (hfin : JsValue.isNonFiniteNumber (.number (.ofNat (decimalValue expr))) = false) :
    handleEquals (jsEngine otherEval) ⟨expr, p⟩ =
      ⟨(JsNumber.round12 (.ofNat (decimalValue expr))).toStr, p⟩ := by
  have hne : expr ≠ [] := by
    rintro rfl
    simp [ALLOWED] at hall
  have := safeEvaluate_literal otherEval expr hall hlit hfin
  simp only [handleEquals, hne, if_false, this]
  rfl

/-- The equals handlers on a non-empty expression that fails the whitelist. -/
theorem handleEquals_not_allowed {ν : Type} (E : Engine ν) (expr : List Char) (p : Int)
    (hne : expr ≠ []) (h : ALLOWED expr = false) :
    handleEquals E ⟨expr, p⟩ = ⟨['E', 'r', 'r', 'o', 'r'], p⟩ := by
  simp [handleEquals, safeEvaluate_eq, hne, h]

set_option maxRecDepth 4000 in
/-- C16 (the code at the failing input): typing `1000000000000000000000` and
pressing equals succeeds with the Number `1e21`, which is formatted as
`1e+21`; that string does not pass the whitelist, and after `append('+')`,
`append('2')` the next equals fails, however the engine evaluates other
strings. -/
theorem exponent_result_breaks_chain :
    JsValue.toStr (.number (JsNumber.round12 (.ofNat (10 ^ 21)))) = ['1', 'e', '+', '2', '1'] ∧
    ALLOWED ['1', 'e', '+', '2', '1'] = false ∧
    ∀ otherEval : List Char → Option JsValue,
      runOps (jsEngine otherEval) Calc.init (typeKeys ['1', '0', '0', '0', '0', '0', '0', '0', '0', '0', '0', '0', '0', '0', '0', '0', '0', '0', '0', '0', '0', '0'] ++ [.equals]) = ⟨['1', 'e', '+', '2', '1'], 0⟩ ∧
      runOps (jsEngine otherEval) Calc.init
          ((typeKeys ['1', '0', '0', '0', '0', '0', '0', '0', '0', '0', '0', '0', '0', '0', '0', '0', '0', '0', '0', '0', '0', '0'] ++ [.equals]) ++ (typeKeys ['+', '2'] ++ [.equals])) =
        ⟨['E', 'r', 'r', 'o', 'r'], 0⟩ := by
  have hfmt : (JsNumber.round12 (.ofNat (10 ^ 21))).toStr = ['1', 'e', '+', '2', '1'] := by decide
  refine ⟨hfmt, by decide, ?_⟩
  intro otherEval
  have htyped : appendAll (['1', '0', '0', '0', '0', '0', '0', '0', '0', '0', '0', '0', '0', '0', '0', '0', '0', '0', '0', '0', '0', '0'].map fun c => [c]) Calc.init = ⟨['1', '0', '0', '0', '0', '0', '0', '0', '0', '0', '0', '0', '0', '0', '0', '0', '0', '0', '0', '0', '0', '0'], 0⟩ := by decide
  have hval : decimalValue ['1', '0', '0', '0', '0', '0', '0', '0', '0', '0', '0', '0', '0', '0', '0', '0', '0', '0', '0', '0', '0', '0'] = 10 ^ 21 := by decide
  have h1 : runOps (jsEngine otherEval) Calc.init (typeKeys ['1', '0', '0', '0', '0', '0', '0', '0', '0', '0', '0', '0', '0', '0', '0', '0', '0', '0', '0', '0', '0', '0'] ++ [.equals]) =
      ⟨['1', 'e', '+', '2', '1'], 0⟩ := by
    rw [runOps_append, runOps_typeKeys, htyped]
    have := handleEquals_literal otherEval ['1', '0', '0', '0', '0', '0', '0', '0', '0', '0', '0', '0', '0', '0', '0', '0', '0', '0', '0', '0', '0', '0'] 0 (by decide) (by decide) (by decide)
    rw [hval, hfmt] at this
    simpa [runOps, step] using this
  refine ⟨h1, ?_⟩
  have hcont : appendAll (['+', '2'].map fun c => [c]) ⟨['1', 'e', '+', '2', '1'], 0⟩ =
      ⟨['1', 'e', '+', '2', '1'] ++ ['+', '2'], 0⟩ := by decide
  rw [runOps_append, h1, runOps_append, runOps_typeKeys, hcont]
  have := handleEquals_not_allowed (jsEngine otherEval) (['1', 'e', '+', '2', '1'] ++ ['+', '2']) 0
    (by decide) (by decide)
  simpa [runOps, step] using this

end Calculator
